import Mathlib

/-!
Shallow embedding of `src/Laba_2/parallel_trace.cpp`.

The program computes the sum of matrix traces over a fixed collection of
square integer matrices, splitting the collection into contiguous ranges
across worker threads, accumulating one slot per worker, and summing the
slots afterwards.

Modelling decisions:
* `Matrix` (`std::vector<std::vector<int>>`) becomes `List (List Int)`.
* An element access `matrix[i][j]` that is out of bounds is undefined
  behaviour in C++; it is modelled as `none`, and `none` propagates through
  every accumulation (`addOpt`), so any computation that performs an
  out-of-bounds access yields `none` as a whole.
* `long long` accumulators become `Int`; the absence of overflow for the
  program's actual parameters is proved separately (claim C7).
* The loop bound of `calculate_trace` is the global constant
  `MATRIX_SIZE`; the defining loops are stated once with the bound as a
  parameter (`traceAux`, `trace_workerAux`, `parallel_totalAux`) and the
  program's functions are the instances at `MATRIX_SIZE`.
* Each worker writes its result into a dedicated slot and the main thread
  joins all workers before reading the slots, so the observable result of
  a trial is the deterministic function `parallel_total` of the matrix
  collection and the worker count; thread interleaving has no other
  observable effect.
-/

namespace ParallelTrace

/-- Source: `using Matrix = std::vector<std::vector<int>>;` -/
abbrev Matrix := List (List Int)

/-- Source: `const int NUM_MATRICES = 1000;` -/
def NUM_MATRICES : Nat := 1000

/-- Source: `const int MATRIX_SIZE = 50;` -/
def MATRIX_SIZE : Nat := 50

/-- Source: `const int RANDOM_MIN = -100;` -/
def RANDOM_MIN : Int := -100

/-- Source: `const int RANDOM_MAX = 100;` -/
def RANDOM_MAX : Int := 100

/-- The element access `matrix[i][j]`; `none` models an out-of-bounds
access (undefined behaviour in the C++ source). -/
def matAccess (m : Matrix) (i j : Nat) : Option Int :=
  (m[i]?).bind fun row => row[j]?

/-- One accumulation step `acc += x` where either side may already have hit
undefined behaviour. -/
def addOpt (acc x : Option Int) : Option Int :=
  acc.bind fun a => x.map fun v => a + v

/-- Left-to-right accumulation of a list of optional summands, starting
from `0`, exactly like the C++ `for` loops that sum into an accumulator. -/
def optSum (l : List (Option Int)) : Option Int :=
  l.foldl addOpt (some 0)

/-- The loop body of `calculate_trace` with the loop bound `S` as a
parameter: `for (int i = 0; i < S; ++i) trace += matrix[i][i];`. -/
def traceAux (S : Nat) (m : Matrix) : Option Int :=
  optSum ((List.range S).map fun i => matAccess m i i)

/-- Source: `long long calculate_trace(const Matrix& matrix)`: sums
`matrix[i][i]` for `i` in `[0, MATRIX_SIZE)`, regardless of the actual
dimensions of the argument. -/
def calculate_trace (m : Matrix) : Option Int :=
  traceAux MATRIX_SIZE m

/-- The loop body of `trace_worker` with the trace loop bound `S` as a
parameter: sums `calculate_trace(matrices[i])` for
`i` in `[start_index, end_index)` into the worker's slot. -/
def trace_workerAux (S : Nat) (matrices : List Matrix) (istart iend : Nat) :
    Option Int :=
  optSum ((List.range' istart (iend - istart)).map fun i =>
    (matrices[i]?).bind (traceAux S))

/-- Source: `void trace_worker(matrices, start_index, end_index, result)`:
the value the worker writes into its dedicated slot. -/
def trace_worker (matrices : List Matrix) (istart iend : Nat) : Option Int :=
  trace_workerAux MATRIX_SIZE matrices istart iend

/-- Source: `int matrices_per_thread = NUM_MATRICES / num_threads;`, generalised
over the collection size `M` and the worker count `N`. -/
def matrices_per_thread (M N : Nat) : Nat :=
  M / N

/-- Source: `int start_index = i * matrices_per_thread;` for worker `k`. -/
def start_index (M N k : Nat) : Nat :=
  k * matrices_per_thread M N

/-- Source: `int end_index = (i == num_threads - 1) ? NUM_MATRICES
: start_index + matrices_per_thread;` for worker `k`. -/
def end_index (M N k : Nat) : Nat :=
  if k = N - 1 then M else start_index M N k + matrices_per_thread M N

/-- The index range assigned to worker `k`, as the list of indices it
iterates over. -/
def partition (M N k : Nat) : List Nat :=
  List.range' (start_index M N k) (end_index M N k - start_index M N k)

/-- All `N` per-worker partitions, in worker order. -/
def partitions (M N : Nat) : List (List Nat) :=
  (List.range N).map fun k => partition M N k

/-- One trial of the main loop with the trace loop bound `S` as a
parameter: launch `N` workers on their ranges, join, then sum the slots
sequentially (`total_trace += res`). -/
def parallel_totalAux (S : Nat) (matrices : List Matrix) (N : Nat) :
    Option Int :=
  optSum ((List.range N).map fun k =>
    trace_workerAux S matrices (start_index matrices.length N k)
      (end_index matrices.length N k))

/-- The grand total a trial with `N` worker threads computes on the
collection `matrices`. -/
def parallel_total (matrices : List Matrix) (N : Nat) : Option Int :=
  parallel_totalAux MATRIX_SIZE matrices N

/-- Source: `std::vector<int> thread_counts = {1, 2, 4, 8};` -/
def thread_counts : List Nat := [1, 2, 4, 8]

/-- The observable result of `main`, as a function of the generated
collection: the list of trials (worker count paired with the grand total
that trial reports) and the exit code (`return 0;`). `main` reads no
command-line arguments, so the model depends on nothing else. -/
def main_model (matrices : List Matrix) : List (Nat × Option Int) × Int :=
  (thread_counts.map fun n => (n, parallel_total matrices n), 0)

/-- Spec-side description of the trace: the sum of the elements at
positions `(i, i)` for `i` in `[0, S)`. -/
def diagSum (S : Nat) (m : Matrix) : Int :=
  (((List.range S).map fun i => (m.getD i []).getD i 0)).sum

/-- A well-formed square matrix of size `S`. -/
def wfMatrix (S : Nat) (m : Matrix) : Prop :=
  m.length = S ∧ ∀ row ∈ m, row.length = S

/-- A well-formed square matrix of size `S` whose entries all lie in
`[lo, hi]`, as the program's generator produces. -/
def boundedMatrix (S : Nat) (lo hi : Int) (m : Matrix) : Prop :=
  m.length = S ∧ ∀ row ∈ m, row.length = S ∧ ∀ x ∈ row, lo ≤ x ∧ x ≤ hi

/-- The 2×2 matrix `[[1,2],[3,4]]` from the spec's scenario. -/
def mat2x2 : Matrix := [[1, 2], [3, 4]]

/-- A collection of 3 copies of `mat2x2`. -/
def coll3 : List Matrix := [mat2x2, mat2x2, mat2x2]

/-- An all-zero well-formed matrix of the program's size, used as a
concrete instance. -/
def zeroMat : Matrix := List.replicate MATRIX_SIZE (List.replicate MATRIX_SIZE 0)

/-- A collection of `NUM_MATRICES` all-zero matrices, used as a concrete
instance of the program's actual parameters. -/
def zeroColl : List Matrix := List.replicate NUM_MATRICES zeroMat

/-- A collection of two all-zero matrices, used as a concrete instance. -/
def zeroColl2 : List Matrix := [zeroMat, zeroMat]

/-- A collection holding a single 2×2 matrix, used as a concrete instance
of an oversubscribed trial (more workers than matrices). -/
def singletonColl : List Matrix := [mat2x2]

/-- A 1×1 matrix, used as a concrete undersized input. -/
def tinyMat : Matrix := [[1]]

/- ================= helper lemmas about the accumulator ================= -/

theorem foldl_addOpt_none (l : List (Option Int)) :
    l.foldl addOpt none = none := by
  induction l with
  | nil => rfl
  | cons x l ih => simpa [addOpt] using ih

theorem foldl_addOpt_some (l : List (Option Int)) : ∀ a : Int,
    l.foldl addOpt (some a) = (optSum l).map fun t => a + t := by
  induction l with
  | nil =>
    intro a
    simp [optSum, addOpt]
  | cons x l ih =>
    intro a
    cases x with
    | none =>
      simp [optSum, List.foldl_cons, addOpt, foldl_addOpt_none]
    | some v =>
      show l.foldl addOpt (some (a + v)) =
        (optSum (some v :: l)).map fun t => a + t
      have hl : optSum (some v :: l) = (optSum l).map fun t => v + t := by
        show l.foldl addOpt (some (0 + v)) = (optSum l).map fun t => v + t
        rw [zero_add]
        exact ih v
      rw [ih (a + v), hl, Option.map_map]
      cases optSum l with
      | none => rfl
      | some t =>
        simp [Function.comp, add_assoc]

theorem optSum_nil : optSum [] = some 0 := rfl

theorem optSum_cons_none (l : List (Option Int)) :
    optSum (none :: l) = none := by
  simp [optSum, List.foldl_cons, addOpt, foldl_addOpt_none]

theorem optSum_cons_some (v : Int) (l : List (Option Int)) :
    optSum (some v :: l) = (optSum l).map fun t => v + t := by
  show l.foldl addOpt (some (0 + v)) = (optSum l).map fun t => v + t
  rw [zero_add]
  exact foldl_addOpt_some l v

theorem optSum_append (l1 l2 : List (Option Int)) :
    optSum (l1 ++ l2) = addOpt (optSum l1) (optSum l2) := by
  show (l1 ++ l2).foldl addOpt (some 0) = addOpt (optSum l1) (optSum l2)
  rw [List.foldl_append]
  cases h : optSum l1 with
  | none =>
    show l2.foldl addOpt (optSum l1) = _
    rw [h, foldl_addOpt_none]
    rfl
  | some a =>
    show l2.foldl addOpt (optSum l1) = _
    rw [h, foldl_addOpt_some]
    rfl

theorem optSum_singleton (x : Option Int) : optSum [x] = x := by
  cases x with
  | none => rfl
  | some v => show some (0 + v) = some v; rw [zero_add]

theorem optSum_map_some (vals : List Int) :
    optSum (vals.map some) = some vals.sum := by
  induction vals with
  | nil => rfl
  | cons v vals ih =>
    rw [List.map_cons, optSum_cons_some, ih, List.sum_cons]
    rfl

theorem optSum_isSome (l : List (Option Int)) :
    (optSum l).isSome ↔ ∀ x ∈ l, x.isSome := by
  induction l with
  | nil => simp [optSum_nil]
  | cons x l ih =>
    cases x with
    | none => simp [optSum_cons_none]
    | some v =>
      rw [optSum_cons_some]
      cases hs : optSum l with
      | none =>
        simp only [Option.map_none']
        constructor
        · intro h
          exact absurd h (by simp)
        · intro h
          have hsome : (optSum l).isSome :=
            ih.mpr fun y hy => h y (List.mem_cons_of_mem _ hy)
          rw [hs] at hsome
          simp at hsome
      | some t =>
        simp only [Option.map_some']
        constructor
        · intro _ y hy
          rcases List.mem_cons.mp hy with hy | hy
          · rw [hy]; rfl
          · exact ih.mp (by rw [hs]; rfl) y hy
        · intro _
          rfl

theorem optSum_bound (B : Nat) (l : List (Option Int))
    (h : ∀ x ∈ l, ∃ v : Int, x = some v ∧ v.natAbs ≤ B) :
    ∃ t : Int, optSum l = some t ∧ t.natAbs ≤ B * l.length := by
  induction l with
  | nil => exact ⟨0, rfl, by simp⟩
  | cons x l ih =>
    obtain ⟨v, hx, hv⟩ := h x (List.mem_cons_self x l)
    obtain ⟨t, ht, htb⟩ := ih fun y hy => h y (List.mem_cons_of_mem _ hy)
    refine ⟨v + t, ?_, ?_⟩
    · rw [hx, optSum_cons_some, ht]
      rfl
    · have habs := Int.natAbs_add_le v t
      have hmul : B * (x :: l).length = B * l.length + B := by
        rw [List.length_cons, Nat.mul_succ]
      omega

/- ================= splitting and aggregating ranges ================= -/

theorem range'_append_one (s m n : Nat) :
    List.range' s m ++ List.range' (s + m) n = List.range' s (m + n) := by
  have h := List.range'_append s m n 1
  rw [Nat.one_mul] at h
  rw [Nat.add_comm m n]
  exact h

theorem trace_workerAux_split (S : Nat) (mats : List Matrix) (s m e : Nat)
    (h1 : s ≤ m) (h2 : m ≤ e) :
    trace_workerAux S mats s e =
      addOpt (trace_workerAux S mats s m) (trace_workerAux S mats m e) := by
  unfold trace_workerAux
  rw [← optSum_append, ← List.map_append]
  have hlen : e - s = (m - s) + (e - m) := by omega
  have hr := range'_append_one s (m - s) (e - m)
  rw [Nat.add_sub_cancel' h1] at hr
  rw [hlen, ← hr]

theorem start_le_length (M N k : Nat) (hN : 1 ≤ N) (hk : k < N) :
    start_index M N k ≤ M := by
  unfold start_index matrices_per_thread
  calc k * (M / N) ≤ N * (M / N) := Nat.mul_le_mul_right _ (by omega)
    _ = M / N * N := Nat.mul_comm _ _
    _ ≤ M := Nat.div_mul_le_self _ _

theorem agg_upTo (S : Nat) (mats : List Matrix) (N : Nat) (hN : 1 ≤ N) :
    ∀ j, j ≤ N →
      optSum ((List.range j).map fun k =>
        trace_workerAux S mats (start_index mats.length N k)
          (end_index mats.length N k)) =
      trace_workerAux S mats 0
        (if j = N then mats.length
         else j * matrices_per_thread mats.length N) := by
  intro j
  induction j with
  | zero =>
    intro _
    have hne : (0 : Nat) ≠ N := by omega
    simp only [List.range_zero, List.map_nil, if_neg hne, Nat.zero_mul]
    rfl
  | succ j ih =>
    intro hj
    have hjN : j ≤ N := by omega
    have hjn : j ≠ N := by omega
    rw [List.range_succ, List.map_append, optSum_append, ih hjN, if_neg hjn]
    simp only [List.map_cons, List.map_nil]
    rw [optSum_singleton]
    simp only [start_index, end_index, matrices_per_thread]
    by_cases hlast : j = N - 1
    · have hj1 : j + 1 = N := by omega
      rw [if_pos hlast, if_pos hj1]
      have hle : j * (mats.length / N) ≤ mats.length := by
        have := start_le_length mats.length N j hN (by omega)
        simpa [start_index, matrices_per_thread] using this
      have hsplit := trace_workerAux_split S mats 0 (j * (mats.length / N))
        mats.length (Nat.zero_le _) hle
      rw [← hsplit]
    · have hj1 : j + 1 ≠ N := by omega
      rw [if_neg hlast, if_neg hj1]
      have hsplit := trace_workerAux_split S mats 0 (j * (mats.length / N))
        (j * (mats.length / N) + mats.length / N) (Nat.zero_le _)
        (Nat.le_add_right _ _)
      rw [← hsplit]
      congr 1
      ring

theorem parallel_totalAux_eq_seq (S : Nat) (mats : List Matrix) (N : Nat)
    (hN : 1 ≤ N) :
    parallel_totalAux S mats N = trace_workerAux S mats 0 mats.length := by
  have h := agg_upTo S mats N hN N (le_refl N)
  rw [if_pos rfl] at h
  exact h

theorem partition_join_upTo (M N : Nat) (hN : 1 ≤ N) :
    ∀ j, j ≤ N →
      ((List.range j).map fun k => partition M N k).flatten =
        List.range' 0 (if j = N then M
                       else j * matrices_per_thread M N) := by
  intro j
  induction j with
  | zero =>
    intro _
    have hne : (0 : Nat) ≠ N := by omega
    simp only [List.range_zero, List.map_nil, if_neg hne, Nat.zero_mul]
    rfl
  | succ j ih =>
    intro hj
    have hjN : j ≤ N := by omega
    have hjn : j ≠ N := by omega
    rw [List.range_succ, List.map_append, List.flatten_append, ih hjN,
      if_neg hjn]
    simp only [List.map_cons, List.map_nil, List.flatten_cons, List.flatten_nil,
      List.append_nil]
    simp only [partition, start_index, end_index, matrices_per_thread]
    by_cases hlast : j = N - 1
    · have hj1 : j + 1 = N := by omega
      rw [if_pos hlast, if_pos hj1]
      have hle : j * (M / N) ≤ M := by
        have := start_le_length M N j hN (by omega)
        simpa [start_index, matrices_per_thread] using this
      have hr := range'_append_one 0 (j * (M / N)) (M - j * (M / N))
      rw [Nat.zero_add, Nat.add_sub_cancel' hle] at hr
      exact hr
    · have hj1 : j + 1 ≠ N := by omega
      rw [if_neg hlast, if_neg hj1]
      have hlen : j * (M / N) + M / N - j * (M / N) = M / N :=
        Nat.add_sub_cancel_left _ _
      rw [hlen]
      have hr := range'_append_one 0 (j * (M / N)) (M / N)
      rw [Nat.zero_add] at hr
      rw [hr]
      congr 1
      ring

theorem partition_join (M N : Nat) (hN : 1 ≤ N) :
    (partitions M N).flatten = List.range M := by
  have h := partition_join_upTo M N hN N (le_refl N)
  rw [if_pos rfl] at h
  rw [List.range_eq_range']
  exact h

/- ================= claim theorems ================= -/

/-- C1: for every matrix collection and every worker count `N` with
`1 ≤ N ≤ M`, the grand total produced by partitioning into `N` contiguous
ranges, summing `calculate_trace` over each range into a per-worker slot,
and sequentially summing the slots, equals the sequential sum of
`calculate_trace` over all `M` matrices, which is the 1-worker total. -/
theorem parallel_total_indep_of_workers (mats : List Matrix) (N : Nat)
    (h1 : 1 ≤ N) (h2 : N ≤ mats.length) :
    parallel_total mats N = trace_worker mats 0 mats.length ∧
    parallel_total mats N = parallel_total mats 1 := by
  have hN := parallel_totalAux_eq_seq MATRIX_SIZE mats N h1
  have h1w := parallel_totalAux_eq_seq MATRIX_SIZE mats 1 (le_refl 1)
  exact ⟨hN, by rw [parallel_total, hN, parallel_total, h1w]⟩

theorem parallel_total_indep_of_workers_witness :
    1 ≤ 2 ∧ 2 ≤ zeroColl2.length ∧
      (parallel_total zeroColl2 2 = trace_worker zeroColl2 0 zeroColl2.length ∧
       parallel_total zeroColl2 2 = parallel_total zeroColl2 1) :=
  ⟨by decide, by decide,
    parallel_total_indep_of_workers zeroColl2 2 (by decide) (by decide)⟩

/-- C2: for every `M ≥ 1` and every `N` with `1 ≤ N ≤ M`, the `N` worker
ranges are contiguous and pairwise disjoint and their concatenation in
worker order is exactly the index list `[0, M)`; moreover every index
`i < M` lies in exactly one worker's range. -/
theorem partition_cover (M N : Nat) (h1 : 1 ≤ N) (h2 : N ≤ M) :
    (partitions M N).flatten = List.range M ∧
    ∀ i, i < M →
      ∃! k, k < N ∧ start_index M N k ≤ i ∧ i < end_index M N k := by
  refine ⟨partition_join M N h1, ?_⟩
  intro i hi
  have hN0 : 0 < N := h1
  obtain ⟨q, hq⟩ : ∃ q, q = M / N := ⟨_, rfl⟩
  have hq1 : 1 ≤ q := by rw [hq]; exact (Nat.one_le_div_iff hN0).mpr h2
  obtain ⟨d, hd⟩ : ∃ d, d = i / q := ⟨_, rfl⟩
  obtain ⟨r, hr⟩ : ∃ r, r = i % q := ⟨_, rfl⟩
  have hdm : q * d + r = i := by rw [hd, hr]; exact Nat.div_add_mod i q
  have hmod : r < q := by rw [hr]; exact Nat.mod_lt i hq1
  have hd_le : d * q ≤ i := by rw [hd]; exact Nat.div_mul_le_self i q
  have hdq : d * q = q * d := Nat.mul_comm _ _
  have hmemk : ∀ k, (start_index M N k ≤ i ∧ i < end_index M N k) ↔
      (k * q ≤ i ∧ i < if k = N - 1 then M else k * q + q) := by
    intro k
    simp only [start_index, end_index, matrices_per_thread, ← hq]
  refine ⟨min d (N - 1), ⟨by omega, ?_⟩, ?_⟩
  · rw [hmemk]
    constructor
    · calc min d (N - 1) * q ≤ d * q :=
            Nat.mul_le_mul_right _ (Nat.min_le_left _ _)
        _ ≤ i := hd_le
    · by_cases hc : min d (N - 1) = N - 1
      · rw [if_pos hc]
        exact hi
      · rw [if_neg hc]
        have hmin : min d (N - 1) = d := by omega
        rw [hmin]
        omega
  · rintro k ⟨hkN, hk⟩
    rw [hmemk] at hk
    obtain ⟨hk1, hk2⟩ := hk
    by_cases hkL : k = N - 1
    · have hge : N - 1 ≤ d := by
        rw [hd]
        refine (Nat.le_div_iff_mul_le hq1).mpr ?_
        rw [← hkL]
        exact hk1
      omega
    · rw [if_neg hkL] at hk2
      have hk2' : i < (k + 1) * q := by
        have hs : (k + 1) * q = k * q + q := by ring
        omega
      have hdk : i / q = k := Nat.div_eq_of_lt_le hk1 hk2'
      have : d = k := by rw [hd, hdk]
      omega

theorem partition_cover_witness :
    1 ≤ 4 ∧ 4 ≤ 10 ∧
      ((partitions 10 4).flatten = List.range 10 ∧
       ∀ i, i < 10 →
         ∃! k, k < 4 ∧ start_index 10 4 k ≤ i ∧ i < end_index 10 4 k) :=
  ⟨by decide, by decide, partition_cover 10 4 (by decide) (by decide)⟩

/-- C4: for every `M ≥ 1` and `1 ≤ N ≤ M`, the last worker's range has
size `M - (N-1)*(M/N)`; every other worker's range has size `M / N`; the
last size is at least `M / N` and exceeds it by at most `N - 1`. -/
theorem last_worker_size (M N : Nat) (h1 : 1 ≤ N) (h2 : N ≤ M) :
    end_index M N (N - 1) - start_index M N (N - 1) = M - (N - 1) * (M / N) ∧
    (∀ k, k < N - 1 → end_index M N k - start_index M N k = M / N) ∧
    M / N ≤ end_index M N (N - 1) - start_index M N (N - 1) ∧
    end_index M N (N - 1) - start_index M N (N - 1) ≤ M / N + (N - 1) := by
  obtain ⟨q, hq⟩ : ∃ q, q = M / N := ⟨_, rfl⟩
  obtain ⟨r, hr⟩ : ∃ r, r = M % N := ⟨_, rfl⟩
  have hdm : N * q + r = M := by rw [hq, hr]; exact Nat.div_add_mod M N
  have hmod : r < N := by rw [hr]; exact Nat.mod_lt M h1
  have hNq : (N - 1) * q + q = N * q := by
    obtain ⟨n, rfl⟩ : ∃ n, N = n + 1 := ⟨N - 1, by omega⟩
    simp only [Nat.add_sub_cancel]
    ring
  have hlast : end_index M N (N - 1) - start_index M N (N - 1) =
      M - (N - 1) * q := by
    simp only [start_index, end_index, matrices_per_thread, ← hq]
    rw [if_true]
  refine ⟨by rw [hlast, hq], ?_, ?_, ?_⟩
  · intro k hk
    have hkL : k ≠ N - 1 := by omega
    simp only [start_index, end_index, matrices_per_thread, if_neg hkL, ← hq]
    exact Nat.add_sub_cancel_left _ _
  · rw [hlast, ← hq]
    omega
  · rw [hlast, ← hq]
    omega

theorem last_worker_size_witness :
    1 ≤ 4 ∧ 4 ≤ 10 ∧
      (end_index 10 4 3 - start_index 10 4 3 = 10 - 3 * (10 / 4) ∧
       (∀ k, k < 3 → end_index 10 4 k - start_index 10 4 k = 10 / 4) ∧
       10 / 4 ≤ end_index 10 4 3 - start_index 10 4 3 ∧
       end_index 10 4 3 - start_index 10 4 3 ≤ 10 / 4 + 3) :=
  ⟨by decide, by decide, last_worker_size 10 4 (by decide) (by decide)⟩

/-- C6: for `M = 10` and `N = 4` the partitioning yields `per_worker = 2`
and exactly the ranges `[0,2)`, `[2,4)`, `[4,6)`, `[6,10)`. -/
theorem partition_example_M10_N4 :
    matrices_per_thread 10 4 = 2 ∧
    (List.range 4).map (fun k => (start_index 10 4 k, end_index 10 4 k)) =
      [(0, 2), (2, 4), (4, 6), (6, 10)] := by
  decide

/-- C9: when the worker count `N` exceeds the collection size `M`,
`per_worker = M / N` is `0`, every worker `k < N - 1` receives the empty
range and contributes the slot value `0`, and the aggregated grand total
still equals the sequential sum of `calculate_trace` over all matrices. -/
theorem oversubscribed_total (mats : List Matrix) (N : Nat)
    (h1 : 1 ≤ N) (h2 : mats.length < N) :
    matrices_per_thread mats.length N = 0 ∧
    (∀ k, k < N - 1 →
      trace_worker mats (start_index mats.length N k)
        (end_index mats.length N k) = some 0) ∧
    parallel_total mats N = trace_worker mats 0 mats.length := by
  have hper : matrices_per_thread mats.length N = 0 := Nat.div_eq_of_lt h2
  refine ⟨hper, ?_, parallel_totalAux_eq_seq MATRIX_SIZE mats N h1⟩
  intro k hk
  have hkN : k ≠ N - 1 := by omega
  show trace_workerAux MATRIX_SIZE mats _ _ = some 0
  simp only [start_index, end_index, if_neg hkN, hper, Nat.mul_zero,
    Nat.add_zero]
  rfl

theorem oversubscribed_total_witness :
    1 ≤ 2 ∧ singletonColl.length < 2 ∧
      (matrices_per_thread singletonColl.length 2 = 0 ∧
       (∀ k, k < 1 →
         trace_worker singletonColl (start_index singletonColl.length 2 k)
           (end_index singletonColl.length 2 k) = some 0) ∧
       parallel_total singletonColl 2 =
         trace_worker singletonColl 0 singletonColl.length) :=
  ⟨by decide, by decide, oversubscribed_total singletonColl 2 (by decide)
    (by decide)⟩

/- ========== helpers for the trace value, bounds and safety ========== -/

theorem traceAux_spec (S : Nat) (m : Matrix) (hlen : S ≤ m.length)
    (hrow : ∀ i, i < S → i < (m.getD i []).length) :
    traceAux S m = some (diagSum S m) := by
  unfold traceAux diagSum
  have hmap : (List.range S).map (fun i => matAccess m i i) =
      ((List.range S).map fun i => (m.getD i []).getD i 0).map some := by
    rw [List.map_map]
    refine List.map_congr_left ?_
    intro i hi
    rw [List.mem_range] at hi
    have him : i < m.length := lt_of_lt_of_le hi hlen
    have hm : m.getD i [] = m[i] := List.getD_eq_getElem m [] him
    have hrl : i < (m[i]).length := by rw [← hm]; exact hrow i hi
    show matAccess m i i = some ((m.getD i []).getD i 0)
    unfold matAccess
    rw [List.getElem?_eq_getElem him]
    show (m[i])[i]? = some ((m.getD i []).getD i 0)
    rw [List.getElem?_eq_getElem hrl]
    congr 1
    rw [hm]
    exact (List.getD_eq_getElem (m[i]) 0 hrl).symm
  rw [hmap, optSum_map_some]

theorem traceAux_bound (S B : Nat) (m : Matrix) (hlen : m.length = S)
    (hrow : ∀ row ∈ m, row.length = S ∧ ∀ x ∈ row, x.natAbs ≤ B) :
    ∃ t, traceAux S m = some t ∧ t.natAbs ≤ B * S := by
  unfold traceAux
  have h := optSum_bound B ((List.range S).map fun i => matAccess m i i) ?_
  · obtain ⟨t, ht, htb⟩ := h
    refine ⟨t, ht, ?_⟩
    rwa [List.length_map, List.length_range] at htb
  · intro x hx
    rw [List.mem_map] at hx
    obtain ⟨i, hi, rfl⟩ := hx
    rw [List.mem_range] at hi
    have him : i < m.length := by omega
    obtain ⟨hrl, hrb⟩ := hrow (m[i]) (List.getElem_mem him)
    have hil : i < (m[i]).length := by rw [hrl]; omega
    refine ⟨(m[i])[i], ?_, hrb _ (List.getElem_mem hil)⟩
    unfold matAccess
    rw [List.getElem?_eq_getElem him]
    show (m[i])[i]? = _
    rw [List.getElem?_eq_getElem hil]

theorem trace_workerAux_bound (S B : Nat) (mats : List Matrix) (s e : Nat)
    (he : e ≤ mats.length)
    (hm : ∀ m ∈ mats, ∃ t, traceAux S m = some t ∧ t.natAbs ≤ B) :
    ∃ p, trace_workerAux S mats s e = some p ∧ p.natAbs ≤ B * (e - s) := by
  unfold trace_workerAux
  have h := optSum_bound B
    ((List.range' s (e - s)).map fun i => (mats[i]?).bind (traceAux S)) ?_
  · obtain ⟨p, hp, hpb⟩ := h
    refine ⟨p, hp, ?_⟩
    rwa [List.length_map, List.length_range'] at hpb
  · intro x hx
    rw [List.mem_map] at hx
    obtain ⟨i, hi, rfl⟩ := hx
    rw [List.mem_range'] at hi
    obtain ⟨his, hie⟩ := hi
    have him : i < mats.length := by omega
    obtain ⟨t, ht, htb⟩ := hm (mats[i]) (List.getElem_mem him)
    refine ⟨t, ?_, htb⟩
    rw [List.getElem?_eq_getElem him]
    show traceAux S (mats[i]) = some t
    exact ht

theorem traceAux_isSome (S : Nat) (hS : 1 ≤ S) (m : Matrix) :
    (traceAux S m).isSome ↔
      (S ≤ m.length ∧
       ∀ i, i < S → ∃ row, m[i]? = some row ∧ i + 1 ≤ row.length) := by
  unfold traceAux
  rw [optSum_isSome]
  constructor
  · intro h
    have hacc : ∀ i, i < S → (matAccess m i i).isSome := by
      intro i hi
      exact h _ (List.mem_map_of_mem _ (List.mem_range.mpr hi))
    have hone : ∀ i, i < S → ∃ row, m[i]? = some row ∧ i + 1 ≤ row.length := by
      intro i hi
      have hia := hacc i hi
      unfold matAccess at hia
      cases hmi : m[i]? with
      | none => rw [hmi] at hia; simp at hia
      | some row =>
        rw [hmi] at hia
        have hia' : (row[i]?).isSome := hia
        rw [Option.isSome_iff_exists] at hia'
        obtain ⟨v, hv⟩ := hia'
        obtain ⟨hlt, _⟩ := List.getElem?_eq_some.mp hv
        exact ⟨row, rfl, by omega⟩
    refine ⟨?_, hone⟩
    obtain ⟨row, hrow, _⟩ := hone (S - 1) (by omega)
    obtain ⟨hlt, _⟩ := List.getElem?_eq_some.mp hrow
    omega
  · rintro ⟨hlen, hrow⟩ x hx
    rw [List.mem_map] at hx
    obtain ⟨i, hi, rfl⟩ := hx
    rw [List.mem_range] at hi
    obtain ⟨row, hr, hrl⟩ := hrow i hi
    unfold matAccess
    rw [hr]
    show (row[i]?).isSome
    rw [List.getElem?_eq_getElem (by omega)]
    rfl

theorem zeroMat_wf : wfMatrix MATRIX_SIZE zeroMat := by
  constructor
  · simp [zeroMat]
  · intro row hrow
    simp only [zeroMat] at hrow
    rw [List.eq_of_mem_replicate hrow]
    simp

theorem zeroMat_bounded :
    boundedMatrix MATRIX_SIZE RANDOM_MIN RANDOM_MAX zeroMat := by
  refine ⟨by simp [zeroMat], ?_⟩
  intro row hrow
  simp only [zeroMat] at hrow
  rw [List.eq_of_mem_replicate hrow]
  refine ⟨by simp, ?_⟩
  intro x hx
  rw [List.eq_of_mem_replicate hx]
  constructor <;> simp [RANDOM_MIN, RANDOM_MAX]

theorem zeroColl_length : zeroColl.length = NUM_MATRICES := by
  simp [zeroColl]

theorem zeroColl_bounded :
    ∀ m ∈ zeroColl, boundedMatrix MATRIX_SIZE RANDOM_MIN RANDOM_MAX m := by
  intro m hm
  simp only [zeroColl] at hm
  rw [List.eq_of_mem_replicate hm]
  exact zeroMat_bounded

/-- C3: on every well-formed square matrix of the program's fixed size
(`MATRIX_SIZE = 50`), `calculate_trace` returns the sum of the elements at
positions `(i, i)` for `i` in `[0, MATRIX_SIZE)`; the embedding is a pure
function of the matrix, so there is no side effect on it. -/
theorem calculate_trace_spec (m : Matrix) (hwf : wfMatrix MATRIX_SIZE m) :
    calculate_trace m = some (diagSum MATRIX_SIZE m) := by
  obtain ⟨hlen, hrow⟩ := hwf
  unfold calculate_trace
  refine traceAux_spec MATRIX_SIZE m (by omega) ?_
  intro i hi
  have him : i < m.length := by omega
  have hr := hrow (m[i]) (List.getElem_mem him)
  rw [List.getD_eq_getElem m [] him, hr]
  exact hi

theorem calculate_trace_spec_witness :
    wfMatrix MATRIX_SIZE zeroMat ∧
      calculate_trace zeroMat = some (diagSum MATRIX_SIZE zeroMat) :=
  ⟨zeroMat_wf, calculate_trace_spec zeroMat zeroMat_wf⟩

/-- C5 is false on the code as written: the trace loop always runs to the
global `MATRIX_SIZE = 50`, so on the bare 2×2 matrix `[[1,2],[3,4]]` the
access `matrix[2][2]` is already out of bounds (modelled `none`) and the
function does not return 5. -/
theorem trace_2x2_cex :
    calculate_trace mat2x2 = none ∧ calculate_trace mat2x2 ≠ some 5 := by
  decide

/-- C5 (amended): with the trace-loop bound taken as the scenario's matrix
size `S = 2` instead of the program's fixed `MATRIX_SIZE = 50`, the matrix
`[[1,2],[3,4]]` has trace 5, and the collection of three such matrices
totals 15 with one worker and also 15 with three workers (one matrix
each). -/
theorem trace_2x2_amended :
    traceAux 2 mat2x2 = some 5 ∧
    parallel_totalAux 2 coll3 1 = some 15 ∧
    parallel_totalAux 2 coll3 3 = some 15 := by
  decide

/-- C7: under the program's actual parameters (`NUM_MATRICES = 1000`
matrices of size 50×50 with entries in `[-100, 100]`) no accumulation
overflows: every per-matrix trace has absolute value at most 5000, every
per-worker slot value and the grand total have absolute value at most
5000000, and 5000000 is within 64-bit signed range. -/
theorem no_overflow (mats : List Matrix)
    (hlen : mats.length = NUM_MATRICES)
    (hb : ∀ m ∈ mats, boundedMatrix MATRIX_SIZE RANDOM_MIN RANDOM_MAX m) :
    (∀ m ∈ mats, ∃ t, calculate_trace m = some t ∧ t.natAbs ≤ 5000) ∧
    (∀ s e, e ≤ NUM_MATRICES →
      ∃ p, trace_worker mats s e = some p ∧ p.natAbs ≤ 5000000) ∧
    (∀ N, 1 ≤ N →
      ∃ g, parallel_total mats N = some g ∧ g.natAbs ≤ 5000000) ∧
    (5000000 : Int) < 2 ^ 63 := by
  have hnum : NUM_MATRICES = 1000 := rfl
  have hsize : MATRIX_SIZE = 50 := rfl
  have htr : ∀ m ∈ mats,
      ∃ t, traceAux MATRIX_SIZE m = some t ∧ t.natAbs ≤ 5000 := by
    intro m hm
    obtain ⟨hml, hmr⟩ := hb m hm
    have h := traceAux_bound MATRIX_SIZE 100 m hml ?_
    · obtain ⟨t, ht, htb⟩ := h
      refine ⟨t, ht, ?_⟩
      omega
    · intro row hrow
      obtain ⟨hrl, hrb⟩ := hmr row hrow
      refine ⟨hrl, ?_⟩
      intro x hx
      have hx' := hrb x hx
      simp only [RANDOM_MIN, RANDOM_MAX] at hx'
      omega
  have hwk : ∀ s e, e ≤ mats.length →
      ∃ p, trace_workerAux MATRIX_SIZE mats s e = some p ∧
        p.natAbs ≤ 5000000 := by
    intro s e he
    obtain ⟨p, hp, hpb⟩ :=
      trace_workerAux_bound MATRIX_SIZE 5000 mats s e he htr
    refine ⟨p, hp, ?_⟩
    omega
  refine ⟨?_, ?_, ?_, by norm_num⟩
  · intro m hm
    obtain ⟨t, ht, htb⟩ := htr m hm
    exact ⟨t, ht, htb⟩
  · intro s e he
    exact hwk s e (by omega)
  · intro N hN
    obtain ⟨g, hg, hgb⟩ := hwk 0 mats.length (le_refl _)
    refine ⟨g, ?_, hgb⟩
    rw [parallel_total, parallel_totalAux_eq_seq MATRIX_SIZE mats N hN]
    exact hg

theorem no_overflow_witness :
    zeroColl.length = NUM_MATRICES ∧
    (∀ m ∈ zeroColl, boundedMatrix MATRIX_SIZE RANDOM_MIN RANDOM_MAX m) ∧
    ((∀ m ∈ zeroColl, ∃ t, calculate_trace m = some t ∧ t.natAbs ≤ 5000) ∧
     (∀ s e, e ≤ NUM_MATRICES →
       ∃ p, trace_worker zeroColl s e = some p ∧ p.natAbs ≤ 5000000) ∧
     (∀ N, 1 ≤ N →
       ∃ g, parallel_total zeroColl N = some g ∧ g.natAbs ≤ 5000000) ∧
     (5000000 : Int) < 2 ^ 63) :=
  ⟨zeroColl_length, zeroColl_bounded,
    no_overflow zeroColl zeroColl_length zeroColl_bounded⟩

/-- C8: the driver model is a function of the generated collection alone
(no command-line arguments); it runs trials for exactly the fixed
worker-count sequence 1, 2, 4, 8, every trial against that same
collection, and its exit code is 0. -/
theorem driver_shape (mats : List Matrix) :
    (main_model mats).1.map Prod.fst = [1, 2, 4, 8] ∧
    (∀ p ∈ (main_model mats).1, p.2 = parallel_total mats p.1) ∧
    (main_model mats).2 = 0 := by
  refine ⟨rfl, ?_, rfl⟩
  intro p hp
  simp only [main_model, thread_counts, List.map_cons, List.map_nil,
    List.mem_cons, List.not_mem_nil, or_false] at hp
  rcases hp with rfl | rfl | rfl | rfl <;> rfl

theorem driver_shape_witness :
    (main_model zeroColl2).1.map Prod.fst = [1, 2, 4, 8] ∧
    (main_model zeroColl2).2 = 0 :=
  ⟨(driver_shape zeroColl2).1, (driver_shape zeroColl2).2.2⟩

/-- C10: `calculate_trace` reads `matrix[i][i]` for `i` in exactly
`[0, MATRIX_SIZE)` whatever the argument's dimensions are; every access is
in range (the out-of-bounds branch yields `none`, so in-range means the
result is `some`) if and only if the matrix has at least `MATRIX_SIZE`
rows and each of its first `MATRIX_SIZE` rows has at least its row index
plus one columns; in particular any matrix with fewer than `MATRIX_SIZE`
rows makes some access go out of range. -/
theorem trace_access_safety (m : Matrix) :
    ((calculate_trace m).isSome ↔
      (MATRIX_SIZE ≤ m.length ∧
       ∀ i, i < MATRIX_SIZE → ∃ row, m[i]? = some row ∧ i + 1 ≤ row.length)) ∧
    (m.length < MATRIX_SIZE → calculate_trace m = none) := by
  have hceq : calculate_trace m = traceAux MATRIX_SIZE m := rfl
  have hiff := traceAux_isSome MATRIX_SIZE (by decide) m
  rw [← hceq] at hiff
  refine ⟨hiff, ?_⟩
  intro hlt
  cases hs : calculate_trace m with
  | none => rfl
  | some t =>
    have hsome : (calculate_trace m).isSome := by rw [hs]; rfl
    have hcon := (hiff.mp hsome).1
    omega

theorem trace_access_safety_witness :
    tinyMat.length < MATRIX_SIZE ∧ calculate_trace tinyMat = none :=
  ⟨by decide, (trace_access_safety tinyMat).2 (by decide)⟩

end ParallelTrace
